import Mathlib

/-! generate-comparators

A shallow embedding of `src/index.js`: the comparator factory `comparators` and the
comparator composer `composeComparators`, with the properties of the specification
stated over them.

* Values handed to the two entry points are `JSValue`s, so that the argument checks
  (`!toComparable`, `typeof … !== 'function'`, `!rest.length`) are the checks of the source.
* Keys are values of any type carrying the two operators the source uses on them,
  `===` and `>` (`Comparable`); no law is assumed of them unless a theorem says so.
* A comparison function is a total function `α → α → Int`.
-/

namespace GenerateComparators

/-! ## Host values -/

/-- Number values, told apart as far as truthiness needs: `NaN`, `-0`, the two infinities
and the finite values (`finite 0` is `+0`). -/
inductive JSNumber where
  | nan
  | negZero
  | posInf
  | negInf
  | finite (q : ℚ)
  deriving DecidableEq

/-- A value that can be passed as an argument; `Fn` is the type of what a function value
denotes. -/
inductive JSValue (Fn : Type) where
  | undefined
  | null
  | boolean (b : Bool)
  | number (n : JSNumber)
  | bigint (z : Int)
  | string (s : String)
  | symbol (description : String)
  | object (ref : Nat)
  | function (f : Fn)

/-- The `typeof` operator. -/
def JSValue.typeof {Fn : Type} : JSValue Fn → String
  | .undefined => "undefined"
  | .null => "object"
  | .boolean _ => "boolean"
  | .number _ => "number"
  | .bigint _ => "bigint"
  | .string _ => "string"
  | .symbol _ => "symbol"
  | .object _ => "object"
  | .function _ => "function"

/-- Truthiness (`ToBoolean`): what `!x` and `if(x)` test. -/
def JSValue.truthy {Fn : Type} : JSValue Fn → Bool
  | .undefined => false
  | .null => false
  | .boolean b => b
  | .number .nan => false
  | .number .negZero => false
  | .number .posInf => true
  | .number .negInf => true
  | .number (.finite q) => decide (q ≠ 0)
  | .bigint z => decide (z ≠ 0)
  | .string s => decide (s ≠ "")
  | .symbol _ => true
  | .object _ => true
  | .function _ => true

/-- The errors the source throws: `new Error(message)` and `new TypeError(message)`. -/
inductive JSError where
  | Error (message : String)
  | TypeError (message : String)
  deriving DecidableEq

/-- The object `{asc, desc}` both entry points return. -/
structure ComparatorPair (C : Type) where
  asc : C
  desc : C

/-! ## Keys -/

/-- The two operators the factory applies to extracted keys: `===` and `>`. -/
class Comparable (κ : Type) where
  strictEq : κ → κ → Bool
  gt : κ → κ → Bool

/-- Keys of a linearly ordered type on which `===` is equality and `>` is the order. -/
class LinearComparable (κ : Type) extends Comparable κ, LinearOrder κ where
  strictEq_iff : ∀ x y : κ, strictEq x y = true ↔ x = y
  gt_iff : ∀ x y : κ, gt x y = true ↔ y < x

instance : LinearComparable Int where
  strictEq x y := decide (x = y)
  gt x y := decide (y < x)
  strictEq_iff := by simp
  gt_iff := by simp

instance : LinearComparable Nat where
  strictEq x y := decide (x = y)
  gt x y := decide (y < x)
  strictEq_iff := by simp
  gt_iff := by simp

/-! ## `comparators` -/

/-- `const COEFFICIENTS = [1, -1]`; the source destructures the mapped array into
`[asc, desc]`, so the two entries are kept as a pair. -/
def COEFFICIENTS : Int × Int := (1, -1)

/-- The closure `(a, b) => { … }` built for one `coefficient` inside `comparators`
(index.js lines 16-25). -/
def comparatorFor {α κ : Type} [Comparable κ] (toComparable : α → κ) (coefficient : Int)
    (a b : α) : Int :=
  let aComparable := toComparable a
  let bComparable := toComparable b
  if Comparable.strictEq aComparable bComparable then
    0
  else
    let comparison : Int := if Comparable.gt aComparable bComparable then 1 else -1
    coefficient * comparison

/-- The function `comparators` (index.js lines 8-29). -/
def comparators {α κ : Type} [Comparable κ] (toComparable : JSValue (α → κ)) :
    Except JSError (ComparatorPair (α → α → Int)) :=
  if !toComparable.truthy then
    .error (.Error "toComparable is required")
  else
    match toComparable with
    | .function f =>
      let (asc, desc) := Prod.map (comparatorFor f) (comparatorFor f) COEFFICIENTS
      .ok { asc := asc, desc := desc }
    | _ => .error (.TypeError "toComparable is not a function")

/-! ## `composeComparators` -/

/-- What one call of a composed comparison function does: it returns an integer, falls off
the end of the loop (the call evaluates to `undefined`), or throws. -/
inductive Completion where
  | returns (n : Int)
  | fallsThrough
  | throws (e : JSError)
  deriving DecidableEq

/-- The `for` loop of the closure built for one `coefficient` inside `composeComparators`
(index.js lines 45-53), started at index `i`. Calling an entry of `rest` that is not a
function throws a `TypeError`. -/
def composeLoop {α : Type} (rest : List (JSValue (α → α → Int))) (coefficient : Int)
    (a b : α) (i : Nat) : Completion :=
  if h : i < rest.length then
    match rest[i] with
    | .function comparator =>
      let comparison := comparator a b
      if comparison ≠ 0 then
        .returns (coefficient * comparison)
      else if i = rest.length - 1 then
        .returns 0
      else
        composeLoop rest coefficient a b (i + 1)
    | _ => .throws (.TypeError "rest[i] is not a function")
  else
    .fallsThrough
termination_by rest.length - i

/-- The function `composeComparators` (index.js lines 36-58). -/
def composeComparators {α : Type} (rest : List (JSValue (α → α → Int))) :
    Except JSError (ComparatorPair (α → α → Completion)) :=
  if rest.length = 0 then
    .error (.Error "No comparators to compose")
  else if rest.any (fun comparator => comparator.typeof != "function") then
    .error (.TypeError "All arguments must be functions")
  else
    let mk := fun (coefficient : Int) (a b : α) => composeLoop rest coefficient a b 0
    let (asc, desc) := Prod.map mk mk COEFFICIENTS
    .ok { asc := asc, desc := desc }

/-! ## Basic facts -/

theorem typeof_eq_function_iff {Fn : Type} (x : JSValue Fn) :
    x.typeof = "function" ↔ ∃ f, x = .function f := by
  cases x <;> simp [JSValue.typeof]

theorem comparators_function {α κ : Type} [Comparable κ] (f : α → κ) :
    comparators (.function f)
      = .ok { asc := comparatorFor f 1, desc := comparatorFor f (-1) } := rfl

/-- The first non-zero entry of a list of comparison results, `0` when there is none. -/
def firstNonZero : List Int → Int
  | [] => 0
  | x :: xs => if x ≠ 0 then x else firstNonZero xs

theorem firstNonZero_eq_zero_iff (l : List Int) : firstNonZero l = 0 ↔ ∀ x ∈ l, x = 0 := by
  induction l with
  | nil => simp [firstNonZero]
  | cons x xs ih =>
    by_cases hx : x = 0
    · simp [firstNonZero, hx, ih]
    · simp [firstNonZero, hx]

theorem firstNonZero_neg (l : List Int) :
    firstNonZero (l.map fun x => -x) = -firstNonZero l := by
  induction l with
  | nil => simp [firstNonZero]
  | cons x xs ih =>
    by_cases hx : x = 0
    · simp [firstNonZero, hx, ih]
    · simp [firstNonZero, hx]

theorem firstNonZero_eq_getElem (l : List Int) (k : Nat) (hk : k < l.length)
    (hne : l[k] ≠ 0) (hz : ∀ j (hj : j < l.length), j < k → l[j] = 0) :
    firstNonZero l = l[k] := by
  induction l generalizing k with
  | nil => simp at hk
  | cons x xs ih =>
    cases k with
    | zero =>
      have hx : x ≠ 0 := by simpa using hne
      simp [firstNonZero, hx]
    | succ k =>
      have hx : x = 0 := by simpa using hz 0 (by simp) (by omega)
      have hk2 : k < xs.length := by simpa using hk
      have := ih k hk2 (by simpa using hne)
        (fun j hj hjk => by simpa using hz (j + 1) (by simpa using hj) (by omega))
      simpa [firstNonZero, hx] using this

/-- On a list of functions the loop started at an index inside the list returns, with the
coefficient applied to the first non-zero result from that index on. -/
theorem composeLoop_functions {α : Type} (cs : List (α → α → Int)) (coefficient : Int)
    (a b : α) :
    ∀ (n i : Nat), cs.length - i = n → i < cs.length →
      composeLoop (cs.map .function) coefficient a b i
        = .returns (coefficient * firstNonZero ((cs.drop i).map fun c => c a b)) := by
  intro n
  induction n with
  | zero => intro i h1 h2; omega
  | succ n ih =>
    intro i h1 h2
    have hlen : i < (cs.map (JSValue.function)).length := by simpa using h2
    rw [composeLoop, dif_pos hlen]
    have hget : (cs.map (JSValue.function))[i] = JSValue.function cs[i] := by simp
    rw [List.drop_eq_getElem_cons h2]
    simp only [hget, List.map_cons, firstNonZero, List.length_map]
    by_cases hc : cs[i] a b = 0
    · simp only [hc, ne_eq, not_true_eq_false, if_false]
      by_cases hlast : i = cs.length - 1
      · have hdrop : cs.drop (i + 1) = [] := List.drop_eq_nil_of_le (by omega)
        rw [if_pos hlast, hdrop]
        simp [firstNonZero]
      · rw [if_neg hlast]
        exact ih (i + 1) (by omega) (by omega)
    · simp [hc]

theorem any_not_function_map {α : Type} (cs : List (α → α → Int)) :
    (cs.map JSValue.function).any (fun comparator => comparator.typeof != "function") = false := by
  induction cs with
  | nil => rfl
  | cons c cs ih => simp [JSValue.typeof, ih]

/-- On a non-empty list of functions the composer succeeds, and its two comparison functions
are the loop run from index 0 with coefficient `1` and `-1`. -/
theorem composeComparators_functions {α : Type} (cs : List (α → α → Int)) (hne : cs ≠ []) :
    composeComparators (cs.map .function)
      = .ok { asc := fun a b => composeLoop (cs.map .function) 1 a b 0,
              desc := fun a b => composeLoop (cs.map .function) (-1) a b 0 } := by
  have hlen : ¬ (cs.map (JSValue.function)).length = 0 := by
    simpa using hne
  rw [composeComparators, if_neg hlen, any_not_function_map]
  rfl

theorem composeLoop_functions_zero {α : Type} (cs : List (α → α → Int)) (hne : cs ≠ [])
    (coefficient : Int) (a b : α) :
    composeLoop (cs.map .function) coefficient a b 0
      = .returns (coefficient * firstNonZero (cs.map fun c => c a b)) := by
  have hpos : 0 < cs.length := List.length_pos.mpr hne
  simpa using composeLoop_functions cs coefficient a b cs.length 0 (by omega) hpos

/-- Every argument list whose entries all have `typeof` equal to `'function'` is a list of
function values. -/
theorem exists_functions_of_all_typeof {α : Type} (rest : List (JSValue (α → α → Int)))
    (h : ∀ x ∈ rest, x.typeof = "function") :
    ∃ cs : List (α → α → Int), rest = cs.map .function := by
  induction rest with
  | nil => exact ⟨[], rfl⟩
  | cons x xs ih =>
    obtain ⟨cs, hcs⟩ := ih (fun y hy => h y (List.mem_cons_of_mem _ hy))
    obtain ⟨f, hf⟩ := (typeof_eq_function_iff x).mp (h x (List.mem_cons_self _ _))
    exact ⟨f :: cs, by simp [hf, hcs]⟩

/-- The three ways `composeComparators` ends, by the shape of its argument list. -/
theorem composeComparators_cases {α : Type} (rest : List (JSValue (α → α → Int))) :
    (rest = [] ∧ composeComparators rest = .error (.Error "No comparators to compose")) ∨
    (rest ≠ [] ∧ (∃ x ∈ rest, x.typeof ≠ "function") ∧
      composeComparators rest = .error (.TypeError "All arguments must be functions")) ∨
    (rest ≠ [] ∧ (∀ x ∈ rest, x.typeof = "function") ∧
      ∃ p, composeComparators rest = .ok p) := by
  by_cases h0 : rest = []
  · left
    subst h0
    exact ⟨rfl, rfl⟩
  · right
    have hlen : ¬ rest.length = 0 := by simpa using h0
    by_cases hany : rest.any (fun comparator => comparator.typeof != "function") = true
    · left
      refine ⟨h0, ?_, ?_⟩
      · simpa using hany
      · rw [composeComparators, if_neg hlen, if_pos hany]
    · right
      refine ⟨h0, ?_, ?_⟩
      · simpa using hany
      · rw [composeComparators, if_neg hlen, if_neg hany]
        exact ⟨_, rfl⟩

/-- What `comparators` does with an argument that is not a function: the required-argument
guard takes the falsy ones, the type guard the others. -/
theorem comparators_of_not_function {α κ : Type} [Comparable κ] (x : JSValue (α → κ))
    (h : x.typeof ≠ "function") :
    comparators x
      = if x.truthy then .error (.TypeError "toComparable is not a function")
        else .error (.Error "toComparable is required") := by
  cases x with
  | function f => simp [JSValue.typeof] at h
  | _ => simp only [comparators]; split <;> simp_all

/-! ## The factory's closures on their own -/

theorem comparatorFor_neg_one {α κ : Type} [Comparable κ] (f : α → κ) (a b : α) :
    comparatorFor f (-1) a b = -comparatorFor f 1 a b := by
  simp only [comparatorFor]
  cases Comparable.strictEq (f a) (f b) <;> cases Comparable.gt (f a) (f b) <;> simp

theorem comparatorFor_one_range {α κ : Type} [Comparable κ] (f : α → κ) (a b : α) :
    comparatorFor f 1 a b = -1 ∨ comparatorFor f 1 a b = 0 ∨ comparatorFor f 1 a b = 1 := by
  simp only [comparatorFor]
  cases Comparable.strictEq (f a) (f b) <;> cases Comparable.gt (f a) (f b) <;> simp

/-- On linearly ordered keys the ascending closure is the sign of the comparison. -/
theorem comparatorFor_one_linear {α κ : Type} [LinearComparable κ] (f : α → κ) (a b : α) :
    (f a < f b ∧ comparatorFor f 1 a b = -1) ∨
    (f a = f b ∧ comparatorFor f 1 a b = 0) ∨
    (f b < f a ∧ comparatorFor f 1 a b = 1) := by
  simp only [comparatorFor]
  rcases lt_trichotomy (f a) (f b) with h | h | h
  · left
    have h1 : Comparable.strictEq (f a) (f b) = false := by
      rw [Bool.eq_false_iff, ne_eq, LinearComparable.strictEq_iff]
      exact ne_of_lt h
    have h2 : Comparable.gt (f a) (f b) = false := by
      rw [Bool.eq_false_iff, ne_eq, LinearComparable.gt_iff]
      exact not_lt_of_lt h
    simp [h, h1, h2]
  · right; left
    have h1 : Comparable.strictEq (f a) (f b) = true :=
      (LinearComparable.strictEq_iff _ _).mpr h
    exact ⟨h, by simp [h1]⟩
  · right; right
    have h1 : Comparable.strictEq (f a) (f b) = false := by
      rw [Bool.eq_false_iff, ne_eq, LinearComparable.strictEq_iff]
      exact ne_of_gt h
    have h2 : Comparable.gt (f a) (f b) = true := (LinearComparable.gt_iff _ _).mpr h
    simp [h, h1, h2]

/-! ## Sample inputs -/

/-- Two comparison functions on integers: one that always ties, then the difference. -/
def sampleComparators : List (Int → Int → Int) :=
  [fun _ _ => 0, fun a b => a - b]

/-! ## The comparator factory -/

/-- C1: for every key-extraction function `f`, `comparators(f)` succeeds and its `asc(a, b)`
is `0` when `f(a) === f(b)`, is `1` when the keys are not equal and `f(a) > f(b)`, and is
`-1` in every other case; so the result is always one of `-1`, `0`, `1`. -/
theorem comparators_asc_spec {α κ : Type} [Comparable κ] (f : α → κ) :
    ∃ p, comparators (.function f) = .ok p ∧ ∀ a b : α,
      (Comparable.strictEq (f a) (f b) = true → p.asc a b = 0) ∧
      (Comparable.strictEq (f a) (f b) = false → Comparable.gt (f a) (f b) = true →
        p.asc a b = 1) ∧
      (Comparable.strictEq (f a) (f b) = false → Comparable.gt (f a) (f b) = false →
        p.asc a b = -1) ∧
      (p.asc a b = -1 ∨ p.asc a b = 0 ∨ p.asc a b = 1) := by
  refine ⟨_, comparators_function f, fun a b => ?_⟩
  simp only [comparatorFor]
  cases h1 : Comparable.strictEq (f a) (f b) <;>
    cases h2 : Comparable.gt (f a) (f b) <;> simp

/-- C3: for every key-extraction function `f` and all `a`, `b`,
`comparators(f).asc(a, b) = -comparators(f).desc(a, b)` whenever `f(a)` is not equal to
`f(b)`, and both are exactly `0` whenever `f(a)` equals `f(b)`. -/
theorem comparators_asc_desc {α κ : Type} [Comparable κ] (f : α → κ) :
    ∃ p, comparators (.function f) = .ok p ∧ ∀ a b : α,
      (Comparable.strictEq (f a) (f b) = false → p.asc a b = -p.desc a b) ∧
      (Comparable.strictEq (f a) (f b) = true → p.asc a b = 0 ∧ p.desc a b = 0) := by
  refine ⟨_, comparators_function f, fun a b => ?_⟩
  simp only [comparatorFor]
  cases h1 : Comparable.strictEq (f a) (f b) <;>
    cases h2 : Comparable.gt (f a) (f b) <;> simp

/-! ## The comparator composer -/

/-- C2: for every non-empty list `cs` of integer-valued comparison functions,
`composeComparators(...cs)` succeeds and its `asc(a, b)` returns `c(a, b)`, unscaled, for
the first `c` in `cs` whose result is non-zero, and returns `0` when every `c` in `cs`
returns `0` on `(a, b)`. -/
theorem composeComparators_asc_first_nonzero {α : Type} (cs : List (α → α → Int))
    (hne : cs ≠ []) :
    ∃ p, composeComparators (cs.map .function) = .ok p ∧ ∀ a b : α,
      (∀ (k : Nat) (hk : k < cs.length), cs[k] a b ≠ 0 →
        (∀ (j : Nat) (hj : j < cs.length), j < k → cs[j] a b = 0) →
        p.asc a b = .returns (cs[k] a b)) ∧
      ((∀ c ∈ cs, c a b = 0) → p.asc a b = .returns 0) := by
  refine ⟨_, composeComparators_functions cs hne, fun a b => ⟨?_, ?_⟩⟩
  · intro k hk hnz hz
    have hk2 : k < (cs.map fun c => c a b).length := by simpa using hk
    have := firstNonZero_eq_getElem (cs.map fun c => c a b) k hk2 (by simpa using hnz)
      (fun j hj hjk => by simpa using hz j (by simpa using hj) hjk)
    simp only [composeLoop_functions_zero cs hne, this]
    simp
  · intro hall
    have : firstNonZero (cs.map fun c => c a b) = 0 :=
      (firstNonZero_eq_zero_iff _).mpr (by simpa using hall)
    simp [composeLoop_functions_zero cs hne, this]

/-- C2 at `sampleComparators`: the first comparator ties everywhere, so the second decides. -/
theorem composeComparators_asc_first_nonzero_witness :
    sampleComparators ≠ [] ∧
    ∃ p, composeComparators (sampleComparators.map .function) = .ok p ∧
      p.asc 3 5 = .returns (-2) ∧ p.asc 4 4 = .returns 0 := by
  refine ⟨by simp [sampleComparators], ?_⟩
  obtain ⟨p, hp, h⟩ :=
    composeComparators_asc_first_nonzero sampleComparators (by simp [sampleComparators])
  refine ⟨p, hp, ?_, ?_⟩
  · have := (h 3 5).1 1 (by simp [sampleComparators]) (by simp [sampleComparators])
      (fun j hj hjk => by
        have : j = 0 := by omega
        subst this
        simp [sampleComparators])
    simpa [sampleComparators] using this
  · exact (h 4 4).2 (by simp [sampleComparators])

/-- C4: for every non-empty list `cs` of integer-valued comparison functions,
`composeComparators(...cs).desc(a, b)` is the first non-zero result `c(a, b)` multiplied by
`-1`, and is `0` when all comparators return `0`; hence `desc(a, b) = -asc(a, b)` on every
input, and `asc(a, b) = desc(a, b) = 0` exactly when every comparator ties on `(a, b)`. -/
theorem composeComparators_desc_spec {α : Type} (cs : List (α → α → Int)) (hne : cs ≠ []) :
    ∃ p, composeComparators (cs.map .function) = .ok p ∧ ∀ a b : α,
      (∀ (k : Nat) (hk : k < cs.length), cs[k] a b ≠ 0 →
        (∀ (j : Nat) (hj : j < cs.length), j < k → cs[j] a b = 0) →
        p.desc a b = .returns (-1 * cs[k] a b)) ∧
      ((∀ c ∈ cs, c a b = 0) → p.desc a b = .returns 0) ∧
      (∃ x : Int, p.asc a b = .returns x ∧ p.desc a b = .returns (-x)) ∧
      ((p.asc a b = .returns 0 ∧ p.desc a b = .returns 0) ↔ ∀ c ∈ cs, c a b = 0) := by
  refine ⟨_, composeComparators_functions cs hne, fun a b => ⟨?_, ?_, ?_, ?_⟩⟩
  · intro k hk hnz hz
    have hk2 : k < (cs.map fun c => c a b).length := by simpa using hk
    have := firstNonZero_eq_getElem (cs.map fun c => c a b) k hk2 (by simpa using hnz)
      (fun j hj hjk => by simpa using hz j (by simpa using hj) hjk)
    simp only [composeLoop_functions_zero cs hne, this]
    simp
  · intro hall
    have : firstNonZero (cs.map fun c => c a b) = 0 :=
      (firstNonZero_eq_zero_iff _).mpr (by simpa using hall)
    simp [composeLoop_functions_zero cs hne, this]
  · exact ⟨firstNonZero (cs.map fun c => c a b),
      by simp [composeLoop_functions_zero cs hne],
      by simp [composeLoop_functions_zero cs hne]⟩
  · have hiff := firstNonZero_eq_zero_iff (cs.map fun c => c a b)
    simp only [composeLoop_functions_zero cs hne]
    constructor
    · rintro ⟨h1, -⟩
      have h0 : firstNonZero (cs.map fun c => c a b) = 0 := by simpa using h1
      simpa using hiff.mp h0
    · intro hall
      have h0 : firstNonZero (cs.map fun c => c a b) = 0 := hiff.mpr (by simpa using hall)
      simp [h0]

/-- C4 at `sampleComparators`: `desc` negates the deciding difference and keeps ties at `0`. -/
theorem composeComparators_desc_spec_witness :
    sampleComparators ≠ [] ∧
    ∃ p, composeComparators (sampleComparators.map .function) = .ok p ∧
      p.desc 3 5 = .returns 2 ∧ p.desc 4 4 = .returns 0 := by
  refine ⟨by simp [sampleComparators], ?_⟩
  obtain ⟨p, hp, h⟩ :=
    composeComparators_desc_spec sampleComparators (by simp [sampleComparators])
  refine ⟨p, hp, ?_, ?_⟩
  · have := (h 3 5).1 1 (by simp [sampleComparators]) (by simp [sampleComparators])
      (fun j hj hjk => by
        have : j = 0 := by omega
        subst this
        simp [sampleComparators])
    simpa [sampleComparators] using this
  · exact (h 4 4).2.1 (by simp [sampleComparators])

/-! ## Argument validation -/

/-- C5 fails as stated: the number `0` is supplied and is not callable, yet `comparators(0)`
fails with `Error('toComparable is required')`, not with the `TypeError`. -/
theorem comparators_zero_is_required_error :
    (JSValue.number (.finite 0) : JSValue (Int → Int)).typeof ≠ "function" ∧
    comparators (JSValue.number (.finite 0) : JSValue (Int → Int))
      = .error (.Error "toComparable is required") ∧
    comparators (JSValue.number (.finite 0) : JSValue (Int → Int))
      ≠ .error (.TypeError "toComparable is not a function") := by
  refine ⟨by simp [JSValue.typeof], ?_, ?_⟩
  · simp [comparators, JSValue.truthy]
  · simp [comparators, JSValue.truthy]

/-- C5, amended: for every argument `x` that is not callable, `comparators(x)` fails with
`TypeError('toComparable is not a function')` when `x` is truthy, and with
`Error('toComparable is required')` when `x` is falsy. -/
theorem comparators_not_callable {α κ : Type} [Comparable κ] (x : JSValue (α → κ))
    (h : x.typeof ≠ "function") :
    (x.truthy = true →
      comparators x = .error (.TypeError "toComparable is not a function")) ∧
    (x.truthy = false →
      comparators x = .error (.Error "toComparable is required")) := by
  rw [comparators_of_not_function x h]
  constructor <;> intro ht <;> simp [ht]

/-- C5, amended, at the argument `42` of the test suite. -/
theorem comparators_not_callable_witness :
    (JSValue.number (.finite 42) : JSValue (Int → Int)).typeof ≠ "function" ∧
    comparators (JSValue.number (.finite 42) : JSValue (Int → Int))
      = .error (.TypeError "toComparable is not a function") :=
  ⟨by simp [JSValue.typeof],
   (comparators_not_callable (JSValue.number (.finite 42) : JSValue (Int → Int))
      (by simp [JSValue.typeof])).1 (by simp [JSValue.truthy])⟩

/-- C6: `composeComparators(...args)` fails with `Error('No comparators to compose')` if and
only if `args` is empty; fails with `TypeError('All arguments must be functions')` if and
only if `args` is non-empty and some argument, at any position, is not callable; and returns
an `{asc, desc}` pair if and only if `args` is non-empty and every argument is callable. -/
theorem composeComparators_validation {α : Type} (args : List (JSValue (α → α → Int))) :
    (composeComparators args = .error (.Error "No comparators to compose") ↔ args = []) ∧
    (composeComparators args = .error (.TypeError "All arguments must be functions") ↔
      args ≠ [] ∧ ∃ x ∈ args, x.typeof ≠ "function") ∧
    ((∃ p, composeComparators args = .ok p) ↔
      args ≠ [] ∧ ∀ x ∈ args, x.typeof = "function") := by
  rcases composeComparators_cases args with ⟨h0, he⟩ | ⟨h0, hx, he⟩ | ⟨h0, hx, p, he⟩
  · refine ⟨⟨fun _ => h0, fun _ => he⟩, ⟨fun h => ?_, fun h => absurd h0 h.1⟩,
      ⟨fun h => ?_, fun h => absurd h0 h.1⟩⟩
    · rw [he] at h; simp at h
    · obtain ⟨q, hq⟩ := h
      rw [he] at hq; simp at hq
  · refine ⟨⟨fun h => ?_, fun h => absurd h h0⟩, ⟨fun _ => ⟨h0, hx⟩, fun _ => he⟩,
      ⟨fun h => ?_, fun h => ?_⟩⟩
    · rw [he] at h; simp at h
    · obtain ⟨q, hq⟩ := h
      rw [he] at hq; simp at hq
    · obtain ⟨x, hxm, hxt⟩ := hx
      exact absurd (h.2 x hxm) hxt
  · refine ⟨⟨fun h => ?_, fun h => absurd h h0⟩, ⟨fun h => ?_, fun h => ?_⟩,
      ⟨fun _ => ⟨h0, hx⟩, fun _ => ⟨p, he⟩⟩⟩
    · rw [he] at h; simp at h
    · rw [he] at h; simp at h
    · obtain ⟨_, x, hxm, hxt⟩ := h
      exact absurd (hx x hxm) hxt

/-- C7: `comparators(x)` returns an `{asc, desc}` pair if and only if `x` is callable, and
raises an error otherwise; called with no argument (`x` undefined) the error is
`Error('toComparable is required')`. -/
theorem comparators_validation {α κ : Type} [Comparable κ] (x : JSValue (α → κ)) :
    ((∃ p, comparators x = .ok p) ↔ x.typeof = "function") ∧
    (x.typeof ≠ "function" → ∃ e, comparators x = .error e) ∧
    comparators (JSValue.undefined : JSValue (α → κ))
      = .error (.Error "toComparable is required") := by
  refine ⟨?_, ?_, rfl⟩
  · constructor
    · rintro ⟨p, hp⟩
      by_contra hx
      rw [comparators_of_not_function x hx] at hp
      split at hp <;> simp at hp
    · intro hx
      obtain ⟨f, rfl⟩ := (typeof_eq_function_iff x).mp hx
      exact ⟨_, comparators_function f⟩
  · intro hx
    rw [comparators_of_not_function x hx]
    split
    · exact ⟨_, rfl⟩
    · exact ⟨_, rfl⟩

/-- C8: once `composeComparators` has succeeded, every call of `asc(a, b)` and of
`desc(a, b)` returns an integer: started at any index inside the list the loop leaves
through one of its two `return` statements, so it neither falls through nor throws. -/
theorem composeComparators_returns {α : Type} (rest : List (JSValue (α → α → Int)))
    (p : ComparatorPair (α → α → Completion)) (hp : composeComparators rest = .ok p)
    (a b : α) :
    (∃ n : Int, p.asc a b = .returns n) ∧ (∃ n : Int, p.desc a b = .returns n) ∧
    ∀ (coefficient : Int) (i : Nat), i < rest.length →
      ∃ n : Int, composeLoop rest coefficient a b i = .returns n := by
  rcases composeComparators_cases rest with ⟨_, he⟩ | ⟨_, _, he⟩ | ⟨h0, hx, _⟩
  · rw [he] at hp; simp at hp
  · rw [he] at hp; simp at hp
  · obtain ⟨cs, rfl⟩ := exists_functions_of_all_typeof rest hx
    have hne : cs ≠ [] := by simpa using h0
    rw [composeComparators_functions cs hne] at hp
    have hp2 := Except.ok.inj hp
    subst hp2
    refine ⟨⟨_, composeLoop_functions_zero cs hne 1 a b⟩,
      ⟨_, composeLoop_functions_zero cs hne (-1) a b⟩, ?_⟩
    intro coefficient i hi
    exact ⟨_, composeLoop_functions cs coefficient a b (cs.length - i) i rfl (by simpa using hi)⟩

/-- C8 at `sampleComparators`: the composer is built and both directions return on a tie. -/
theorem composeComparators_returns_witness :
    ∃ p, composeComparators (sampleComparators.map .function) = .ok p ∧
      (∃ n : Int, p.asc 4 4 = .returns n) ∧ (∃ n : Int, p.desc 4 4 = .returns n) := by
  refine ⟨_, composeComparators_functions sampleComparators (by simp [sampleComparators]), ?_⟩
  have h := composeComparators_returns (sampleComparators.map .function) _
    (composeComparators_functions sampleComparators (by simp [sampleComparators])) 4 4
  exact ⟨h.1, h.2.1⟩

/-! ## Composing factory comparators -/

/-- C9: with `byAge = comparators(age)`, `byLastName = comparators(lastName)`,
`byFirstName = comparators(firstName)` on linearly ordered keys and
`composed = composeComparators(byAge.desc, byLastName.asc, byFirstName.desc)`:
`composed.asc(a, b) < 0` if and only if `age(a) > age(b)`, or the ages are equal and
`lastName(a) < lastName(b)`, or ages and last names are equal and
`firstName(a) > firstName(b)`; and `composed.asc(a, b) = 0` if and only if all three keys
are equal. -/
theorem composed_age_lastName_firstName {α κ₁ κ₂ κ₃ : Type} [LinearComparable κ₁]
    [LinearComparable κ₂] [LinearComparable κ₃]
    (age : α → κ₁) (lastName : α → κ₂) (firstName : α → κ₃) :
    ∃ byAge byLastName byFirstName composed,
      comparators (.function age) = .ok byAge ∧
      comparators (.function lastName) = .ok byLastName ∧
      comparators (.function firstName) = .ok byFirstName ∧
      composeComparators
        [.function byAge.desc, .function byLastName.asc, .function byFirstName.desc]
        = .ok composed ∧
      ∀ a b : α, ∃ n : Int, composed.asc a b = .returns n ∧
        (n < 0 ↔
          age a > age b ∨ (age a = age b ∧ lastName a < lastName b) ∨
          (age a = age b ∧ lastName a = lastName b ∧ firstName a > firstName b)) ∧
        (n = 0 ↔ age a = age b ∧ lastName a = lastName b ∧ firstName a = firstName b) := by
  refine ⟨_, _, _, _, comparators_function age, comparators_function lastName,
    comparators_function firstName,
    composeComparators_functions
      [comparatorFor age (-1), comparatorFor lastName 1, comparatorFor firstName (-1)]
      (by simp), fun a b => ?_⟩
  refine ⟨_, composeLoop_functions_zero _ (by simp) 1 a b, ?_⟩
  simp only [List.map, firstNonZero, comparatorFor_neg_one, one_mul, gt_iff_lt]
  rcases comparatorFor_one_linear age a b with ⟨hA, eA⟩ | ⟨hA, eA⟩ | ⟨hA, eA⟩ <;>
    rcases comparatorFor_one_linear lastName a b with ⟨hL, eL⟩ | ⟨hL, eL⟩ | ⟨hL, eL⟩ <;>
    rcases comparatorFor_one_linear firstName a b with ⟨hF, eF⟩ | ⟨hF, eF⟩ | ⟨hF, eF⟩ <;>
    simp [eA, eL, eF, hA, hL, hF, ne_of_lt, ne_of_gt, lt_asymm, le_of_lt]

/-! ## Precedence levels with a direction each -/

/-- Which of the two comparison functions of a pair is taken. -/
inductive Direction where
  | asc
  | desc
  deriving DecidableEq

/-- The other direction. -/
def Direction.opp : Direction → Direction
  | .asc => .desc
  | .desc => .asc

/-- The property `p.asc` or `p.desc` of a pair. -/
def Direction.select {C : Type} : Direction → ComparatorPair C → C
  | .asc, p => p.asc
  | .desc, p => p.desc

/-- One precedence level: a key-extraction function into a key type of its own, and the
direction in which its comparator is handed to the composer. -/
structure Level (α : Type) where
  κ : Type
  [ops : Comparable κ]
  key : α → κ
  direction : Direction

/-- The pair `comparators(key)` builds for a level. -/
def Level.pair {α : Type} (l : Level α) : ComparatorPair (α → α → Int) :=
  letI := l.ops
  { asc := comparatorFor l.key 1, desc := comparatorFor l.key (-1) }

theorem Level.comparators_key {α : Type} (l : Level α) :
    @comparators α l.κ l.ops (.function l.key) = .ok l.pair := rfl

theorem Level.select_opp {α : Type} (l : Level α) (d : Direction) (a b : α) :
    d.opp.select l.pair a b = -d.select l.pair a b := by
  letI := l.ops
  cases d <;> simp [Direction.opp, Direction.select, Level.pair, comparatorFor_neg_one]

theorem zipWith_levels_pairs {α : Type} (sel : Direction → Direction) (levels : List (Level α)) :
    List.zipWith (fun (l : Level α) p => JSValue.function ((sel l.direction).select p))
        levels (levels.map Level.pair)
      = (levels.map fun l => (sel l.direction).select l.pair).map JSValue.function := by
  induction levels with
  | nil => rfl
  | cons l ls ih => simp [ih]

theorem pairs_eq_map_pair {α : Type} {levels : List (Level α)}
    {pairs : List (ComparatorPair (α → α → Int))}
    (h : List.Forall₂
      (fun (l : Level α) p => @comparators α l.κ l.ops (.function l.key) = .ok p)
      levels pairs) :
    pairs = levels.map Level.pair := by
  induction h with
  | nil => rfl
  | cons hp _ ih =>
    rw [Level.comparators_key] at hp
    rw [List.map_cons, ← ih, Except.ok.inj hp]

/-- C10: the `desc` direction of a composition negates every precedence level uniformly.
For key-extraction functions `k1..kn` with a direction `d_i` each, and `pairs` the results of
`comparators(k_i)`, `composeComparators(pairs_1.d_1, ..., pairs_n.d_n).desc(a, b)` equals
`composeComparators(pairs_1.opp(d_1), ..., pairs_n.opp(d_n)).asc(a, b)` for all `a`, `b`,
and both return an integer. -/
theorem composeComparators_desc_eq_opposite_asc {α : Type} (levels : List (Level α))
    (hne : levels ≠ []) :
    ∃ pairs,
      List.Forall₂ (fun (l : Level α) p => @comparators α l.κ l.ops (.function l.key) = .ok p)
        levels pairs ∧
      ∃ composed opposite,
        composeComparators
          (List.zipWith (fun (l : Level α) p => JSValue.function (l.direction.select p))
            levels pairs) = .ok composed ∧
        composeComparators
          (List.zipWith (fun (l : Level α) p => JSValue.function (l.direction.opp.select p))
            levels pairs) = .ok opposite ∧
        ∀ a b : α, composed.desc a b = opposite.asc a b ∧
          ∃ n : Int, composed.desc a b = .returns n := by
  refine ⟨levels.map Level.pair, ?_, ?_⟩
  · rw [List.forall₂_map_right_iff, List.forall₂_same]
    exact fun l _ => l.comparators_key
  · have hne1 : (levels.map fun l => l.direction.select l.pair) ≠ [] := by simpa using hne
    have hne2 : (levels.map fun l => l.direction.opp.select l.pair) ≠ [] := by simpa using hne
    have h1 := (congrArg composeComparators (zipWith_levels_pairs (fun d => d) levels)).trans
      (composeComparators_functions _ hne1)
    have h2 := (congrArg composeComparators (zipWith_levels_pairs Direction.opp levels)).trans
      (composeComparators_functions _ hne2)
    refine ⟨_, _, h1, h2, fun a b => ?_⟩
    · have hneg :
          (levels.map fun l => l.direction.opp.select l.pair).map (fun c => c a b)
            = ((levels.map fun l => l.direction.select l.pair).map fun c => c a b).map
                fun x => -x := by
        simp only [List.map_map]
        exact List.map_congr_left fun l _ => l.select_opp l.direction a b
      simp only [composeLoop_functions_zero _ hne1, composeLoop_functions_zero _ hne2, hneg,
        firstNonZero_neg]
      exact ⟨by simp, _, rfl⟩

/-! ## The fixture of the test suite -/

/-- An element of the `PEOPLE` fixture. -/
structure Person where
  lastName : String
  firstName : String
  age : Nat
  deriving DecidableEq

/-- `===` and `>` on strings (compared by code point). -/
instance : LinearComparable String where
  strictEq x y := decide (x = y)
  gt x y := decide (y < x)
  strictEq_iff := by simp
  gt_iff := by simp

/-- The composition of the test suite: `byAge.desc, byLastName.asc, byFirstName.desc`. -/
def peopleLevels : List (Level Person) :=
  [ { κ := Nat, key := Person.age, direction := .desc },
    { κ := String, key := Person.lastName, direction := .asc },
    { κ := String, key := Person.firstName, direction := .desc } ]

/-- C10 at the composition of the test suite:
`composeComparators(byAge.desc, byLastName.asc, byFirstName.desc).desc` is
`composeComparators(byAge.asc, byLastName.desc, byFirstName.asc).asc`. -/
theorem composeComparators_desc_eq_opposite_asc_witness :
    peopleLevels ≠ [] ∧
    ∃ composed opposite,
      composeComparators
        [JSValue.function (comparatorFor Person.age (-1)),
         JSValue.function (comparatorFor Person.lastName 1),
         JSValue.function (comparatorFor Person.firstName (-1))] = .ok composed ∧
      composeComparators
        [JSValue.function (comparatorFor Person.age 1),
         JSValue.function (comparatorFor Person.lastName (-1)),
         JSValue.function (comparatorFor Person.firstName 1)] = .ok opposite ∧
      ∀ a b : Person, composed.desc a b = opposite.asc a b := by
  refine ⟨by simp [peopleLevels], ?_⟩
  obtain ⟨pairs, hpairs, composed, opposite, h1, h2, h⟩ :=
    composeComparators_desc_eq_opposite_asc peopleLevels (by simp [peopleLevels])
  have hp : pairs = peopleLevels.map Level.pair := pairs_eq_map_pair hpairs
  subst hp
  exact ⟨composed, opposite, h1, h2, fun a b => (h a b).1⟩

/-! ## Sorting with a comparison function

The repository implements no sort: its comparison functions are handed to the host's
`Array.prototype.sort`. That routine is modelled by a stable comparison sort which puts `a`
before `b` when the comparison function returns a value `≤ 0` on `(a, b)`. -/

/-- The host's `sort(cmp)`: stable insertion sort along `cmp a b ≤ 0`. -/
def sortWith {α : Type} (cmp : α → α → Int) (xs : List α) : List α :=
  xs.insertionSort (fun a b => cmp a b ≤ 0)

/-- The `NUMBERS` fixture of the test suite. -/
def NUMBERS : List Int := [7, -1, 12, 12, 80, 15624, -100, 0]

/-- The `PEOPLE` fixture of the test suite. -/
def PEOPLE : List Person :=
  [ { lastName := "Doe", firstName := "John", age := 42 },
    { lastName := "Boole", firstName := "George", age := 67 },
    { lastName := "Lovelace", firstName := "Ada", age := 2 },
    { lastName := "Doe", firstName := "Jane", age := 42 },
    { lastName := "Hamilton", firstName := "Margaret", age := 100 } ]

theorem comparatorFor_one_le_zero_iff {α κ : Type} [LinearComparable κ] (f : α → κ)
    (a b : α) : comparatorFor f 1 a b ≤ 0 ↔ f a ≤ f b := by
  rcases comparatorFor_one_linear f a b with ⟨h, e⟩ | ⟨h, e⟩ | ⟨h, e⟩
  · simp [e, le_of_lt h]
  · simp [e, h]
  · simp [e, not_le_of_lt h]

theorem comparatorFor_neg_one_le_zero_iff {α κ : Type} [LinearComparable κ] (f : α → κ)
    (a b : α) : comparatorFor f (-1) a b ≤ 0 ↔ f b ≤ f a := by
  rw [comparatorFor_neg_one]
  rcases comparatorFor_one_linear f a b with ⟨h, e⟩ | ⟨h, e⟩ | ⟨h, e⟩
  · simp [e, not_le_of_lt h]
  · simp [e, h]
  · simp [e, le_of_lt h]

/-- On linearly ordered keys swapping the arguments negates the ascending closure. -/
theorem comparatorFor_one_swap {α κ : Type} [LinearComparable κ] (f : α → κ) (a b : α) :
    comparatorFor f 1 b a = -comparatorFor f 1 a b := by
  rcases comparatorFor_one_linear f a b with ⟨h, e⟩ | ⟨h, e⟩ | ⟨h, e⟩ <;>
    rcases comparatorFor_one_linear f b a with ⟨h2, e2⟩ | ⟨h2, e2⟩ | ⟨h2, e2⟩
  · exact absurd h2 (lt_asymm h)
  · exact absurd h2.symm (ne_of_lt h)
  · simp [e, e2]
  · exact absurd h (ne_of_gt h2)
  · simp [e, e2]
  · exact absurd h.symm (ne_of_gt h2)
  · simp [e, e2]
  · exact absurd h2 (ne_of_lt h)
  · exact absurd h2 (lt_asymm h)

theorem sortWith_asc_sorted {α κ : Type} [LinearComparable κ] (f : α → κ) (xs : List α) :
    (sortWith (comparatorFor f 1) xs).Pairwise (fun a b => comparatorFor f 1 a b ≤ 0) := by
  haveI : IsTotal α (fun a b => comparatorFor f 1 a b ≤ 0) :=
    ⟨fun a b => by simp only [comparatorFor_one_le_zero_iff]; exact le_total _ _⟩
  haveI : IsTrans α (fun a b => comparatorFor f 1 a b ≤ 0) :=
    ⟨fun a b c => by simp only [comparatorFor_one_le_zero_iff]; exact le_trans⟩
  exact List.sorted_insertionSort (fun a b => comparatorFor f 1 a b ≤ 0) xs

theorem sortWith_desc_sorted {α κ : Type} [LinearComparable κ] (f : α → κ) (xs : List α) :
    (sortWith (comparatorFor f (-1)) xs).Pairwise
      (fun a b => comparatorFor f (-1) a b ≤ 0) := by
  haveI : IsTotal α (fun a b => comparatorFor f (-1) a b ≤ 0) :=
    ⟨fun a b => by simp only [comparatorFor_neg_one_le_zero_iff]; exact le_total _ _⟩
  haveI : IsTrans α (fun a b => comparatorFor f (-1) a b ≤ 0) :=
    ⟨fun a b c => by
      simp only [comparatorFor_neg_one_le_zero_iff]; exact fun h1 h2 => le_trans h2 h1⟩
  exact List.sorted_insertionSort (fun a b => comparatorFor f (-1) a b ≤ 0) xs

theorem sortWith_perm {α : Type} (cmp : α → α → Int) (xs : List α) :
    (sortWith cmp xs).Perm xs :=
  List.perm_insertionSort _ xs

theorem keys_sorted_of_asc {α κ : Type} [LinearComparable κ] (f : α → κ) (ys : List α)
    (h : ys.Pairwise (fun a b => comparatorFor f 1 a b ≤ 0)) :
    (ys.map f).Pairwise (fun x y => x ≤ y) := by
  rw [List.pairwise_map]
  exact h.imp fun {a b} hab => (comparatorFor_one_le_zero_iff f a b).mp hab

theorem keys_sorted_of_desc {α κ : Type} [LinearComparable κ] (f : α → κ) (zs : List α)
    (h : zs.Pairwise (fun a b => comparatorFor f (-1) a b ≤ 0)) :
    (zs.map f).Pairwise (fun x y => x ≥ y) := by
  rw [List.pairwise_map]
  exact h.imp fun {a b} hab => (comparatorFor_neg_one_le_zero_iff f a b).mp hab

/-- C11: for every key-extraction function `f` into a linearly ordered type and every list
`xs`, sorting `xs` with `comparators(f).asc` yields a permutation of `xs` whose keys are in
non-decreasing order, and sorting with `comparators(f).desc` yields a permutation whose keys
are in non-increasing order; the same holds of any list in which every element stands
before the elements the comparison function lets it precede. -/
theorem sort_keys_monotone {α κ : Type} [LinearComparable κ] (f : α → κ) (xs : List α) :
    ∃ p, comparators (.function f) = .ok p ∧
      (sortWith p.asc xs).Perm xs ∧
      ((sortWith p.asc xs).map f).Pairwise (fun x y => x ≤ y) ∧
      (sortWith p.desc xs).Perm xs ∧
      ((sortWith p.desc xs).map f).Pairwise (fun x y => x ≥ y) ∧
      (∀ ys : List α, ys.Pairwise (fun a b => p.asc a b ≤ 0) →
        (ys.map f).Pairwise (fun x y => x ≤ y)) ∧
      (∀ zs : List α, zs.Pairwise (fun a b => p.desc a b ≤ 0) →
        (zs.map f).Pairwise (fun x y => x ≥ y)) :=
  ⟨_, comparators_function f, sortWith_perm _ xs,
    keys_sorted_of_asc f _ (sortWith_asc_sorted f xs), sortWith_perm _ xs,
    keys_sorted_of_desc f _ (sortWith_desc_sorted f xs),
    fun ys h => keys_sorted_of_asc f ys h, fun zs h => keys_sorted_of_desc f zs h⟩

/-- C11 on the `NUMBERS` fixture with the identity key. -/
theorem sort_keys_monotone_witness :
    ∃ p, comparators (.function fun x : Int => x) = .ok p ∧
      sortWith p.asc NUMBERS = [-100, -1, 0, 7, 12, 12, 80, 15624] ∧
      (sortWith p.asc NUMBERS).Perm NUMBERS ∧
      ((sortWith p.asc NUMBERS).map fun x : Int => x).Pairwise (fun x y => x ≤ y) := by
  obtain ⟨p, hp, h1, h2, -⟩ := sort_keys_monotone (fun x : Int => x) NUMBERS
  have hp2 : p = { asc := comparatorFor (fun x : Int => x) 1,
                   desc := comparatorFor (fun x : Int => x) (-1) } :=
    (Except.ok.inj ((comparators_function _).symm.trans hp)).symm
  refine ⟨p, hp, ?_, h1, h2⟩
  subst hp2
  decide

/-- Two orderings of the same integers, one non-decreasing and one non-increasing, are
reverses of each other. -/
theorem eq_reverse_of_sorted {xs ys zs : List Int} (hys : ys.Perm xs)
    (hys2 : ys.Pairwise (fun x y => x ≤ y)) (hzs : zs.Perm xs)
    (hzs2 : zs.Pairwise (fun x y => x ≥ y)) : zs = ys.reverse := by
  have hrev : ys.reverse.Pairwise (fun x y => x ≥ y) := by
    rw [List.pairwise_reverse]
    exact hys2
  have hperm : zs.Perm ys.reverse := (hzs.trans hys.symm).trans (List.reverse_perm ys).symm
  exact List.eq_of_perm_of_sorted hperm hzs2 hrev

/-- C12: for every list `xs` of integers, sorting `xs` with `comparators(x => x).desc` yields
exactly the reverse of the list obtained by sorting `xs` with `comparators(x => x).asc`;
this holds of the modelled sort and of any two orderings of `xs` that follow `asc` and
`desc`. -/
theorem sort_desc_eq_reverse_sort_asc (xs : List Int) :
    ∃ p, comparators (.function fun x : Int => x) = .ok p ∧
      sortWith p.desc xs = (sortWith p.asc xs).reverse ∧
      ∀ ys zs : List Int,
        ys.Perm xs → ys.Pairwise (fun a b => p.asc a b ≤ 0) →
        zs.Perm xs → zs.Pairwise (fun a b => p.desc a b ≤ 0) →
        zs = ys.reverse := by
  have general : ∀ ys zs : List Int,
      ys.Perm xs → ys.Pairwise (fun a b => comparatorFor (fun x : Int => x) 1 a b ≤ 0) →
      zs.Perm xs → zs.Pairwise (fun a b => comparatorFor (fun x : Int => x) (-1) a b ≤ 0) →
      zs = ys.reverse := by
    intro ys zs h1 h2 h3 h4
    have k1 := keys_sorted_of_asc (fun x : Int => x) ys h2
    have k2 := keys_sorted_of_desc (fun x : Int => x) zs h4
    rw [List.map_id'] at k1 k2
    exact eq_reverse_of_sorted h1 k1 h3 k2
  exact ⟨_, comparators_function _,
    general _ _ (sortWith_perm _ xs) (sortWith_asc_sorted _ xs) (sortWith_perm _ xs)
      (sortWith_desc_sorted _ xs),
    general⟩

/-- C12 on the `NUMBERS` fixture. -/
theorem sort_desc_eq_reverse_sort_asc_witness :
    ∃ p, comparators (.function fun x : Int => x) = .ok p ∧
      sortWith p.desc NUMBERS = [15624, 80, 12, 12, 7, 0, -1, -100] ∧
      sortWith p.desc NUMBERS = (sortWith p.asc NUMBERS).reverse := by
  obtain ⟨p, hp, h1, -⟩ := sort_desc_eq_reverse_sort_asc NUMBERS
  have hp2 : p = { asc := comparatorFor (fun x : Int => x) 1,
                   desc := comparatorFor (fun x : Int => x) (-1) } :=
    (Except.ok.inj ((comparators_function _).symm.trans hp)).symm
  refine ⟨p, hp, ?_, h1⟩
  subst hp2
  decide

/-- C13: for every key-extraction function `f` and every list `xs`, two elements `a`, `b`
with equal keys, `a` standing before `b` in `xs`, are compared as `0` by both
`comparators(f).asc` and `comparators(f).desc`, so `a` still stands before `b` after a
stable sort of `xs` driven by either of them: after the modelled sort, and after any sort that
keeps the relative order of elements its comparison function returns `0` on. -/
theorem stable_sort_keeps_equal_keys {α κ : Type} [Comparable κ] (f : α → κ) (xs : List α)
    (a b : α) (hkey : Comparable.strictEq (f a) (f b) = true)
    (hab : List.Sublist [a, b] xs) :
    ∃ p, comparators (.function f) = .ok p ∧
      p.asc a b = 0 ∧ p.desc a b = 0 ∧
      List.Sublist [a, b] (sortWith p.asc xs) ∧
      List.Sublist [a, b] (sortWith p.desc xs) ∧
      ∀ sort : (α → α → Int) → List α → List α,
        (∀ (cmp : α → α → Int) (l : List α) (x y : α),
          cmp x y = 0 → List.Sublist [x, y] l → List.Sublist [x, y] (sort cmp l)) →
        List.Sublist [a, b] (sort p.asc xs) ∧ List.Sublist [a, b] (sort p.desc xs) := by
  have h1 : comparatorFor f 1 a b = 0 := by simp [comparatorFor, hkey]
  have h2 : comparatorFor f (-1) a b = 0 := by simp [comparatorFor, hkey]
  refine ⟨_, comparators_function f, h1, h2, ?_, ?_, fun sort hstable => ?_⟩
  · exact List.pair_sublist_insertionSort (r := fun a b => comparatorFor f 1 a b ≤ 0)
      (le_of_eq h1) hab
  · exact List.pair_sublist_insertionSort (r := fun a b => comparatorFor f (-1) a b ≤ 0)
      (le_of_eq h2) hab
  · exact ⟨hstable _ xs a b h1 hab, hstable _ xs a b h2 hab⟩

/-- C13 on the `PEOPLE` fixture sorted by age: John Doe (42) stays before Jane Doe (42) in
the ascending and in the descending result, which are the lists the test suite expects. -/
theorem stable_sort_keeps_equal_keys_witness :
    ∃ p, comparators (.function Person.age) = .ok p ∧
      List.Sublist
        [({ lastName := "Doe", firstName := "John", age := 42 } : Person),
         { lastName := "Doe", firstName := "Jane", age := 42 }]
        (sortWith p.asc PEOPLE) ∧
      List.Sublist
        [({ lastName := "Doe", firstName := "John", age := 42 } : Person),
         { lastName := "Doe", firstName := "Jane", age := 42 }]
        (sortWith p.desc PEOPLE) ∧
      sortWith p.asc PEOPLE =
        [ { lastName := "Lovelace", firstName := "Ada", age := 2 },
          { lastName := "Doe", firstName := "John", age := 42 },
          { lastName := "Doe", firstName := "Jane", age := 42 },
          { lastName := "Boole", firstName := "George", age := 67 },
          { lastName := "Hamilton", firstName := "Margaret", age := 100 } ] ∧
      sortWith p.desc PEOPLE =
        [ { lastName := "Hamilton", firstName := "Margaret", age := 100 },
          { lastName := "Boole", firstName := "George", age := 67 },
          { lastName := "Doe", firstName := "John", age := 42 },
          { lastName := "Doe", firstName := "Jane", age := 42 },
          { lastName := "Lovelace", firstName := "Ada", age := 2 } ] := by
  obtain ⟨p, hp, -, -, h1, h2, -⟩ :=
    stable_sort_keeps_equal_keys Person.age PEOPLE
      { lastName := "Doe", firstName := "John", age := 42 }
      { lastName := "Doe", firstName := "Jane", age := 42 }
      (by decide) (by decide)
  have hp2 : p = { asc := comparatorFor Person.age 1, desc := comparatorFor Person.age (-1) } :=
    (Except.ok.inj ((comparators_function _).symm.trans hp)).symm
  refine ⟨p, hp, h1, h2, ?_, ?_⟩
  · subst hp2; decide
  · subst hp2; decide

theorem sortWith_of_pairwise {α : Type} (cmp : α → α → Int) (ys : List α)
    (h : ys.Pairwise (fun a b => cmp a b ≤ 0)) : sortWith cmp ys = ys :=
  List.Sorted.insertionSort_eq h

/-- C14: for every key-extraction function `f` into a linearly ordered type and every list
`xs`, in the list sorted by `comparators(f).asc` (respectively `.desc`) every pair of
positions `i < j` satisfies `asc(ys[i], ys[j]) <= 0` (respectively `desc`), and sorting that
list again with the same comparator returns it unchanged: `sort(sort(xs)) = sort(xs)`; more
generally the sort leaves every list alone whose pairs are all in order. -/
theorem sort_idempotent {α κ : Type} [LinearComparable κ] (f : α → κ) (xs : List α) :
    ∃ p, comparators (.function f) = .ok p ∧
      (∀ (i j : Nat) (hi : i < (sortWith p.asc xs).length)
          (hj : j < (sortWith p.asc xs).length), i < j →
          p.asc (sortWith p.asc xs)[i] (sortWith p.asc xs)[j] ≤ 0) ∧
      sortWith p.asc (sortWith p.asc xs) = sortWith p.asc xs ∧
      (∀ (i j : Nat) (hi : i < (sortWith p.desc xs).length)
          (hj : j < (sortWith p.desc xs).length), i < j →
          p.desc (sortWith p.desc xs)[i] (sortWith p.desc xs)[j] ≤ 0) ∧
      sortWith p.desc (sortWith p.desc xs) = sortWith p.desc xs ∧
      (∀ ys : List α, ys.Pairwise (fun a b => p.asc a b ≤ 0) → sortWith p.asc ys = ys) ∧
      (∀ ys : List α, ys.Pairwise (fun a b => p.desc a b ≤ 0) → sortWith p.desc ys = ys) := by
  refine ⟨_, comparators_function f, ?_, ?_, ?_, ?_, ?_, ?_⟩
  · intro i j hi hj hij
    exact (List.pairwise_iff_getElem.mp (sortWith_asc_sorted f xs)) i j hi hj hij
  · exact sortWith_of_pairwise _ _ (sortWith_asc_sorted f xs)
  · intro i j hi hj hij
    exact (List.pairwise_iff_getElem.mp (sortWith_desc_sorted f xs)) i j hi hj hij
  · exact sortWith_of_pairwise _ _ (sortWith_desc_sorted f xs)
  · exact fun ys h => sortWith_of_pairwise _ ys h
  · exact fun ys h => sortWith_of_pairwise _ ys h

/-- C14 on the `PEOPLE` fixture sorted by age: a second sort changes nothing. -/
theorem sort_idempotent_witness :
    ∃ p, comparators (.function Person.age) = .ok p ∧
      sortWith p.asc (sortWith p.asc PEOPLE) = sortWith p.asc PEOPLE ∧
      sortWith p.desc (sortWith p.desc PEOPLE) = sortWith p.desc PEOPLE := by
  obtain ⟨p, hp, -, h1, -, h2, -⟩ := sort_idempotent Person.age PEOPLE
  exact ⟨p, hp, h1, h2⟩

/-- C19: for every pure key-extraction function `f` into a linearly ordered type and all
`a`, `b`: `comparators(f).desc(a, b) = comparators(f).asc(b, a)` and
`comparators(f).asc(a, b) = -comparators(f).asc(b, a)`. -/
theorem comparators_desc_eq_asc_swap {α κ : Type} [LinearComparable κ] (f : α → κ) :
    ∃ p, comparators (.function f) = .ok p ∧ ∀ a b : α,
      p.desc a b = p.asc b a ∧ p.asc a b = -p.asc b a := by
  refine ⟨_, comparators_function f, fun a b => ⟨?_, ?_⟩⟩
  · show comparatorFor f (-1) a b = comparatorFor f 1 b a
    rw [comparatorFor_neg_one, comparatorFor_one_swap f b a, neg_neg]
  · show comparatorFor f 1 a b = -comparatorFor f 1 b a
    rw [comparatorFor_one_swap f a b, neg_neg]

/-! ## Key extractors with side effects

The same closure of `comparators`, for a `toComparable` that reads and writes a state `σ`:
a call `toComparable(x)` in state `s` yields a key and the next state. -/

/-- The closure `(a, b) => { … }` of `comparators` (index.js lines 16-25) with the state
threaded through the two calls of `toComparable`, in the order the source makes them. -/
def comparatorForM {α κ σ : Type} [Comparable κ] (toComparable : α → σ → κ × σ)
    (coefficient : Int) (a b : α) (s : σ) : Int × σ :=
  let (aComparable, s₁) := toComparable a s
  let (bComparable, s₂) := toComparable b s₁
  if Comparable.strictEq aComparable bComparable then
    (0, s₂)
  else
    let comparison : Int := if Comparable.gt aComparable bComparable then 1 else -1
    (coefficient * comparison, s₂)

/-- The function `comparators` (index.js lines 8-29) for a state-passing `toComparable`. -/
def comparatorsM {α κ σ : Type} [Comparable κ] (toComparable : JSValue (α → σ → κ × σ)) :
    Except JSError (ComparatorPair (α → α → σ → Int × σ)) :=
  if !toComparable.truthy then
    .error (.Error "toComparable is required")
  else
    match toComparable with
    | .function f =>
      let (asc, desc) := Prod.map (comparatorForM f) (comparatorForM f) COEFFICIENTS
      .ok { asc := asc, desc := desc }
    | _ => .error (.TypeError "toComparable is not a function")

/-- An extractor that also appends its argument to a log of the calls made so far. -/
def recordCalls {α κ σ : Type} (toComparable : α → σ → κ × σ) :
    α → σ × List α → κ × (σ × List α) :=
  fun x st => ((toComparable x st.1).1, ((toComparable x st.1).2, st.2 ++ [x]))

/-- An extractor whose key is the number of calls made before: it returns a different key
on every call. -/
def callCounter {α : Type} : α → Nat → Nat × Nat :=
  fun _ n => (n, n + 1)

theorem comparatorsM_function {α κ σ : Type} [Comparable κ] (f : α → σ → κ × σ) :
    comparatorsM (.function f)
      = .ok { asc := comparatorForM f 1, desc := comparatorForM f (-1) } := rfl

/-- A pure extractor run through the state-passing closure gives the pure closure and leaves
the state alone. -/
theorem comparatorForM_pure {α κ σ : Type} [Comparable κ] (g : α → κ) (coefficient : Int)
    (a b : α) (s : σ) :
    comparatorForM (fun x t => (g x, t)) coefficient a b s
      = (comparatorFor g coefficient a b, s) := by
  simp only [comparatorForM, comparatorFor]
  split <;> rfl

theorem comparatorForM_snd {α κ σ : Type} [Comparable κ] (f : α → σ → κ × σ)
    (coefficient : Int) (a b : α) (s : σ) :
    (comparatorForM f coefficient a b s).2 = (f b (f a s).2).2 := by
  simp only [comparatorForM]
  split <;> rfl

theorem comparatorForM_neg_one_fst {α κ σ : Type} [Comparable κ] (f : α → σ → κ × σ)
    (a b : α) (s : σ) :
    (comparatorForM f (-1) a b s).1 = -(comparatorForM f 1 a b s).1 := by
  simp only [comparatorForM]
  split
  · simp
  · split <;> simp

/-- C15: with the key extractor a state-passing function, for all `a`, `b` and every initial
state, `comparators(f).desc(a, b)` ends in the same final state as
`comparators(f).asc(a, b)` and returns the negation of its result; with the calls logged,
`desc(a, b)` makes exactly two, on `a` and then on `b`, whereas `asc(b, a)` calls on `b`
first; and on the call-counting extractor `desc(a, b)` and `asc(b, a)` return different
values, so `desc` is not `asc` with swapped arguments. -/
theorem comparators_desc_stateful {α κ σ : Type} [Comparable κ] (f : α → σ → κ × σ) :
    (∃ p, comparatorsM (.function f) = .ok p ∧ ∀ (a b : α) (s : σ),
      (p.desc a b s).2 = (p.asc a b s).2 ∧ (p.desc a b s).1 = -(p.asc a b s).1) ∧
    (∃ q, comparatorsM (.function (recordCalls f)) = .ok q ∧ ∀ (a b : α) (s : σ),
      (q.desc a b (s, [])).2.2 = [a, b] ∧ (q.asc a b (s, [])).2.2 = [a, b] ∧
      (q.asc b a (s, [])).2.2 = [b, a] ∧
      (q.desc a b (s, [])).2 = (q.asc a b (s, [])).2) ∧
    (∃ r, comparatorsM (.function (callCounter : α → Nat → Nat × Nat)) = .ok r ∧
      ∀ a b : α, r.desc a b 0 = (1, 2) ∧ r.asc b a 0 = (-1, 2)) := by
  refine ⟨⟨_, comparatorsM_function f, fun a b s => ⟨?_, ?_⟩⟩,
    ⟨_, comparatorsM_function (recordCalls f), fun a b s => ⟨?_, ?_, ?_, ?_⟩⟩,
    ⟨_, comparatorsM_function callCounter, fun a b => ⟨?_, ?_⟩⟩⟩
  · simp only [comparatorForM_snd]
  · exact comparatorForM_neg_one_fst f a b s
  · simp [comparatorForM_snd, recordCalls]
  · simp [comparatorForM_snd, recordCalls]
  · simp [comparatorForM_snd, recordCalls]
  · simp only [comparatorForM_snd]
  · rfl
  · rfl

/-! ## Composed comparators with side effects

The same loop of `composeComparators`, for comparison functions that read and write a state
`σ`, so that the calls a comparison makes can be observed. -/

/-- The `for` loop of `composeComparators` (index.js lines 45-53), started at index `i`, with
the state threaded through the calls `rest[i](a, b)`. -/
def composeLoopM {α σ : Type} (rest : List (JSValue (α → α → σ → Int × σ)))
    (coefficient : Int) (a b : α) (i : Nat) (s : σ) : Completion × σ :=
  if h : i < rest.length then
    match rest[i] with
    | .function comparator =>
      let r := comparator a b s
      let comparison := r.1
      if comparison ≠ 0 then
        (.returns (coefficient * comparison), r.2)
      else if i = rest.length - 1 then
        (.returns 0, r.2)
      else
        composeLoopM rest coefficient a b (i + 1) r.2
    | _ => (.throws (.TypeError "rest[i] is not a function"), s)
  else
    (.fallsThrough, s)
termination_by rest.length - i

/-- The function `composeComparators` (index.js lines 36-58) for state-passing comparison
functions. -/
def composeComparatorsM {α σ : Type} (rest : List (JSValue (α → α → σ → Int × σ))) :
    Except JSError (ComparatorPair (α → α → σ → Completion × σ)) :=
  if rest.length = 0 then
    .error (.Error "No comparators to compose")
  else if rest.any (fun comparator => comparator.typeof != "function") then
    .error (.TypeError "All arguments must be functions")
  else
    let mk := fun (coefficient : Int) (a b : α) (s : σ) =>
      composeLoopM rest coefficient a b 0 s
    let (asc, desc) := Prod.map mk mk COEFFICIENTS
    .ok { asc := asc, desc := desc }

/-- The comparison function `c`, which also appends its position `i` to a log of the
comparators invoked so far. -/
def recordIndex {α : Type} (i : Nat) (c : α → α → Int) : α → α → List Nat → Int × List Nat :=
  fun a b log => (c a b, log ++ [i])

/-- The argument list `cs` with every comparison function logging its position. -/
def recordInvocations {α : Type} (cs : List (α → α → Int)) :
    List (JSValue (α → α → List Nat → Int × List Nat)) :=
  cs.mapIdx fun i c => JSValue.function (recordIndex i c)

/-- How many entries of a list of comparison results are read up to and including the first
non-zero one. -/
def invoked : List Int → Nat
  | [] => 0
  | x :: xs => if x ≠ 0 then 1 else invoked xs + 1

theorem invoked_of_all_zero (l : List Int) (h : ∀ x ∈ l, x = 0) : invoked l = l.length := by
  induction l with
  | nil => rfl
  | cons x xs ih =>
    have hx : x = 0 := h x (List.mem_cons_self _ _)
    simp [invoked, hx, ih fun y hy => h y (List.mem_cons_of_mem _ hy)]

theorem invoked_eq_succ (l : List Int) (k : Nat) (hk : k < l.length)
    (hne : l[k] ≠ 0) (hz : ∀ j (hj : j < l.length), j < k → l[j] = 0) :
    invoked l = k + 1 := by
  induction l generalizing k with
  | nil => simp at hk
  | cons x xs ih =>
    cases k with
    | zero =>
      have hx : x ≠ 0 := by simpa using hne
      simp [invoked, hx]
    | succ k =>
      have hx : x = 0 := by simpa using hz 0 (by simp) (by omega)
      have hk2 : k < xs.length := by simpa using hk
      have := ih k hk2 (by simpa using hne)
        (fun j hj hjk => by simpa using hz (j + 1) (by simpa using hj) (by omega))
      simp [invoked, hx, this]

theorem firstNonZero_append (l₁ l₂ : List Int) :
    firstNonZero (l₁ ++ l₂)
      = if firstNonZero l₁ ≠ 0 then firstNonZero l₁ else firstNonZero l₂ := by
  induction l₁ with
  | nil => simp [firstNonZero]
  | cons x xs ih =>
    by_cases hx : x = 0
    · simp [firstNonZero, hx, ih]
    · simp [firstNonZero, hx]

/-- The logged loop on a list of functions: the result of the plain loop, and the log
extended by the positions read from `i` on. -/
theorem composeLoopM_recordInvocations {α : Type} (cs : List (α → α → Int))
    (coefficient : Int) (a b : α) :
    ∀ (n i : Nat) (log : List Nat), cs.length - i = n → i < cs.length →
      composeLoopM (recordInvocations cs) coefficient a b i log
        = (.returns (coefficient * firstNonZero ((cs.drop i).map fun c => c a b)),
           log ++ List.range' i (invoked ((cs.drop i).map fun c => c a b))) := by
  intro n
  induction n with
  | zero => intro i log h1 h2; omega
  | succ n ih =>
    intro i log h1 h2
    have hlen : i < (recordInvocations cs).length := by
      simpa [recordInvocations] using h2
    rw [composeLoopM, dif_pos hlen]
    have hget : (recordInvocations cs)[i] = JSValue.function (recordIndex i cs[i]) := by
      simp [recordInvocations]
    have hlen2 : (recordInvocations cs).length = cs.length := by simp [recordInvocations]
    rw [List.drop_eq_getElem_cons h2]
    simp only [hget, List.map_cons, firstNonZero, invoked, recordIndex, hlen2]
    by_cases hc : cs[i] a b = 0
    · simp only [hc, ne_eq, not_true_eq_false, if_false]
      by_cases hlast : i = cs.length - 1
      · have hdrop : cs.drop (i + 1) = [] := List.drop_eq_nil_of_le (by omega)
        rw [if_pos hlast, hdrop]
        simp [firstNonZero, invoked, List.range']
      · rw [if_neg hlast, ih (i + 1) (log ++ [i]) (by omega) (by omega)]
        simp [List.range'_succ]
    · simp [hc, List.range']

theorem any_not_function_recordInvocations {α : Type} (cs : List (α → α → Int)) :
    (recordInvocations cs).any (fun comparator => comparator.typeof != "function") = false := by
  rw [List.any_eq_false]
  intro x hx
  obtain ⟨i, hi, rfl⟩ := List.mem_iff_getElem.mp hx
  simp [recordInvocations, JSValue.typeof]

theorem composeComparatorsM_recordInvocations {α : Type} (cs : List (α → α → Int))
    (hne : cs ≠ []) :
    composeComparatorsM (recordInvocations cs)
      = .ok { asc := fun a b s => composeLoopM (recordInvocations cs) 1 a b 0 s,
              desc := fun a b s => composeLoopM (recordInvocations cs) (-1) a b 0 s } := by
  have hlen : ¬ (recordInvocations cs).length = 0 := by
    simpa [recordInvocations] using hne
  rw [composeComparatorsM, if_neg hlen, any_not_function_recordInvocations]
  rfl

theorem composeLoopM_recordInvocations_zero {α : Type} (cs : List (α → α → Int))
    (hne : cs ≠ []) (coefficient : Int) (a b : α) :
    composeLoopM (recordInvocations cs) coefficient a b 0 []
      = (.returns (coefficient * firstNonZero (cs.map fun c => c a b)),
         List.range (invoked (cs.map fun c => c a b))) := by
  have hpos : 0 < cs.length := List.length_pos.mpr hne
  simpa [List.range_eq_range'] using
    composeLoopM_recordInvocations cs coefficient a b cs.length 0 [] (by omega) hpos

/-- The first non-zero entry is decided by the entries up to and including it. -/
theorem firstNonZero_eq_of_take (l l2 : List Int) (k : Nat) (hk : k < l.length)
    (hne : l[k] ≠ 0) (hz : ∀ j (hj : j < l.length), j < k → l[j] = 0)
    (htake : l2.take (k + 1) = l.take (k + 1)) : firstNonZero l2 = firstNonZero l := by
  have hk2 : k < (l.take (k + 1)).length := by
    rw [List.length_take]; omega
  have h1 : firstNonZero (l.take (k + 1)) = l[k] := by
    have := firstNonZero_eq_getElem (l.take (k + 1)) k hk2
      (by simpa [List.getElem_take] using hne)
      (fun j hj hjk => by
        have hj2 : j < l.length := by omega
        simpa [List.getElem_take] using hz j hj2 hjk)
    simpa [List.getElem_take] using this
  have h2 : ∀ m : List Int, m.take (k + 1) = l.take (k + 1) → firstNonZero m = l[k] := by
    intro m hm
    rw [← List.take_append_drop (k + 1) m, firstNonZero_append, hm, h1, if_pos hne]
  rw [h2 l2 htake, h2 l rfl]

/-- C16: one call of `composed.asc(a, b)` or `composed.desc(a, b)` invokes `cs[0]`, `cs[1]`,
… in order, each at most once, and stops at the first one returning non-zero: if `k` is the
index of the first non-zero result the comparators invoked are exactly those at positions
`0..k`, and if all tie all `N` are invoked; the logging does not change the result, and the
result does not depend on the comparators after index `k`. -/
theorem composeComparators_short_circuit {α : Type} (cs : List (α → α → Int))
    (hne : cs ≠ []) :
    ∃ p, composeComparatorsM (recordInvocations cs) = .ok p ∧ ∀ a b : α,
      (∀ (k : Nat) (hk : k < cs.length), cs[k] a b ≠ 0 →
        (∀ (j : Nat) (hj : j < cs.length), j < k → cs[j] a b = 0) →
        (p.asc a b []).2 = List.range (k + 1) ∧ (p.desc a b []).2 = List.range (k + 1) ∧
        ∀ (cs2 : List (α → α → Int)) (coefficient : Int),
          cs2.take (k + 1) = cs.take (k + 1) →
          composeLoop (cs2.map .function) coefficient a b 0
            = composeLoop (cs.map .function) coefficient a b 0) ∧
      ((∀ c ∈ cs, c a b = 0) →
        (p.asc a b []).2 = List.range cs.length ∧
        (p.desc a b []).2 = List.range cs.length) ∧
      (p.asc a b []).1 = composeLoop (cs.map .function) 1 a b 0 ∧
      (p.desc a b []).1 = composeLoop (cs.map .function) (-1) a b 0 := by
  refine ⟨_, composeComparatorsM_recordInvocations cs hne, fun a b => ⟨?_, ?_, ?_, ?_⟩⟩
  · intro k hk hnz hz
    have hk2 : k < (cs.map fun c => c a b).length := by simpa using hk
    have hinv := invoked_eq_succ (cs.map fun c => c a b) k hk2 (by simpa using hnz)
      (fun j hj hjk => by simpa using hz j (by simpa using hj) hjk)
    refine ⟨?_, ?_, ?_⟩
    · simp only [composeLoopM_recordInvocations_zero cs hne, hinv]
    · simp only [composeLoopM_recordInvocations_zero cs hne, hinv]
    · intro cs2 coefficient htake
      have hne2 : cs2 ≠ [] := by
        intro h
        subst h
        have hl := congrArg List.length htake
        rw [List.take_nil, List.length_nil, List.length_take] at hl
        have hpos : 0 < min (k + 1) cs.length :=
          Nat.lt_min.mpr ⟨Nat.succ_pos k, Nat.lt_of_le_of_lt (Nat.zero_le k) hk⟩
        exact absurd hl.symm (Nat.ne_of_gt hpos)
      rw [composeLoop_functions_zero cs2 hne2, composeLoop_functions_zero cs hne]
      have := firstNonZero_eq_of_take (cs.map fun c => c a b) (cs2.map fun c => c a b) k hk2
        (by simpa using hnz) (fun j hj hjk => by simpa using hz j (by simpa using hj) hjk)
        (by rw [← List.map_take, ← List.map_take, htake])
      rw [this]
  · intro hall
    have hinv := invoked_of_all_zero (cs.map fun c => c a b) (by simpa using hall)
    simp [composeLoopM_recordInvocations_zero cs hne, hinv]
  · simp only [composeLoopM_recordInvocations_zero cs hne, composeLoop_functions_zero cs hne]
  · simp only [composeLoopM_recordInvocations_zero cs hne, composeLoop_functions_zero cs hne]

/-- C16 at `sampleComparators`: on `(3, 5)` both comparators are invoked, in order; on the
tie `(4, 4)` both are invoked as well. -/
theorem composeComparators_short_circuit_witness :
    sampleComparators ≠ [] ∧
    ∃ p, composeComparatorsM (recordInvocations sampleComparators) = .ok p ∧
      (p.asc 3 5 []).2 = [0, 1] ∧ (p.desc 3 5 []).2 = [0, 1] ∧
      (p.asc 4 4 []).2 = [0, 1] := by
  refine ⟨by simp [sampleComparators], ?_⟩
  obtain ⟨p, hp, h⟩ :=
    composeComparators_short_circuit sampleComparators (by simp [sampleComparators])
  have h1 := (h 3 5).1 1 (by simp [sampleComparators]) (by simp [sampleComparators])
    (fun j hj hjk => by
      have : j = 0 := by omega
      subst this
      simp [sampleComparators])
  have h2 := (h 4 4).2.1 (by simp [sampleComparators])
  exact ⟨p, hp, h1.1, h1.2.1, h2.1⟩

/-! ## Nested composition -/

/-- C17: composition is associative. For every non-empty list `cs` and every list `ds` of
integer-valued comparison functions, with `inner = composeComparators(...cs)` and `g` the
function `inner.asc` computes, `composeComparators(inner.asc, ...ds)` and
`composeComparators(...cs, ...ds)` agree on every `(a, b)`, in `asc` and in `desc`. -/
theorem composeComparators_nested {α : Type} (cs ds : List (α → α → Int)) (hne : cs ≠ []) :
    ∃ inner g, composeComparators (cs.map .function) = .ok inner ∧
      (∀ a b : α, inner.asc a b = .returns (g a b)) ∧
      ∃ nested flat,
        composeComparators (JSValue.function g :: ds.map .function) = .ok nested ∧
        composeComparators ((cs ++ ds).map .function) = .ok flat ∧
        ∀ a b : α, nested.asc a b = flat.asc a b ∧ nested.desc a b = flat.desc a b := by
  have hne1 : (fun a b => 1 * firstNonZero (cs.map fun c => c a b)) :: ds ≠ [] := by simp
  have hne2 : cs ++ ds ≠ [] := by simp [hne]
  refine ⟨_, fun a b => 1 * firstNonZero (cs.map fun c => c a b),
    composeComparators_functions cs hne,
    fun a b => composeLoop_functions_zero cs hne 1 a b,
    _, _, composeComparators_functions _ hne1, composeComparators_functions _ hne2,
    fun a b => ?_⟩
  have key : firstNonZero
        (((fun a b => 1 * firstNonZero (cs.map fun c => c a b)) :: ds).map fun c => c a b)
      = firstNonZero ((cs ++ ds).map fun c => c a b) := by
    rw [List.map_append, firstNonZero_append]
    simp [firstNonZero]
  constructor
  · show composeLoop _ 1 a b 0 = composeLoop _ 1 a b 0
    rw [composeLoop_functions_zero _ hne1, composeLoop_functions_zero _ hne2, key]
  · show composeLoop _ (-1) a b 0 = composeLoop _ (-1) a b 0
    rw [composeLoop_functions_zero _ hne1, composeLoop_functions_zero _ hne2, key]

/-- C17 at `sampleComparators` nested in front of the reversed difference. -/
theorem composeComparators_nested_witness :
    sampleComparators ≠ [] ∧
    ∃ inner g, composeComparators (sampleComparators.map .function) = .ok inner ∧
      (∀ a b : Int, inner.asc a b = .returns (g a b)) ∧
      ∃ nested flat,
        composeComparators
          (JSValue.function g :: [fun (a b : Int) => b - a].map .function) = .ok nested ∧
        composeComparators
          ((sampleComparators ++ [fun (a b : Int) => b - a]).map .function) = .ok flat ∧
        ∀ a b : Int, nested.asc a b = flat.asc a b ∧ nested.desc a b = flat.desc a b :=
  ⟨by simp [sampleComparators],
    composeComparators_nested sampleComparators [fun (a b : Int) => b - a]
      (by simp [sampleComparators])⟩

/-! ## Validity of comparison functions -/

/-- Sign-antisymmetry of a comparison function: `sign c(a, b) = -sign c(b, a)`. -/
def SignAntisymmetric {α : Type} (c : α → α → Int) : Prop :=
  ∀ a b : α, Int.sign (c a b) = -Int.sign (c b a)

/-- Transitivity of a comparison function: `c(a, b) ≤ 0` and `c(b, d) ≤ 0` imply
`c(a, d) ≤ 0`. -/
def TransitiveLE {α : Type} (c : α → α → Int) : Prop :=
  ∀ a b d : α, c a b ≤ 0 → c b d ≤ 0 → c a d ≤ 0

theorem SignAntisymmetric.cases {α : Type} {c : α → α → Int} (h : SignAntisymmetric c)
    (a b : α) :
    (c a b < 0 ∧ 0 < c b a) ∨ (c a b = 0 ∧ c b a = 0) ∨ (0 < c a b ∧ c b a < 0) := by
  have hs := h a b
  rcases lt_trichotomy (c b a) 0 with hlt | heq | hgt
  · right; right
    rw [Int.sign_eq_neg_one_of_neg hlt, neg_neg] at hs
    exact ⟨Int.sign_eq_one_iff_pos.mp hs, hlt⟩
  · right; left
    rw [heq] at hs
    exact ⟨Int.sign_eq_zero_iff_zero.mp (by simpa using hs), heq⟩
  · left
    rw [Int.sign_eq_one_of_pos hgt] at hs
    exact ⟨Int.sign_eq_neg_one_iff_neg.mp hs, hgt⟩

theorem signAntisymmetric_of_cases {α : Type} {c : α → α → Int}
    (h : ∀ a b : α,
      (c a b < 0 ∧ 0 < c b a) ∨ (c a b = 0 ∧ c b a = 0) ∨ (0 < c a b ∧ c b a < 0)) :
    SignAntisymmetric c := by
  intro a b
  rcases h a b with ⟨h1, h2⟩ | ⟨h1, h2⟩ | ⟨h1, h2⟩
  · rw [Int.sign_eq_neg_one_of_neg h1, Int.sign_eq_one_of_pos h2]
  · rw [h1, h2]; rfl
  · rw [Int.sign_eq_one_of_pos h1, Int.sign_eq_neg_one_of_neg h2]; rfl

/-- A strict step makes the transitive conclusion strict. -/
theorem lt_of_valid {α : Type} {c : α → α → Int} (hs : SignAntisymmetric c)
    (ht : TransitiveLE c) (a b d : α) (h1 : c a b ≤ 0) (h2 : c b d ≤ 0)
    (h3 : c a b < 0 ∨ c b d < 0) : c a d < 0 := by
  have hz : c a d ≤ 0 := ht a b d h1 h2
  by_contra hnot
  have hz0 : c a d = 0 := by omega
  have hda : c d a = 0 := by
    rcases hs.cases a d with ⟨h, _⟩ | ⟨_, h⟩ | ⟨h, _⟩
    · omega
    · exact h
    · omega
  rcases h3 with h | h
  · have hba : c b a ≤ 0 := ht b d a h2 (le_of_eq hda)
    rcases hs.cases a b with ⟨_, k⟩ | ⟨k, _⟩ | ⟨k, _⟩ <;> omega
  · have hdb : c d b ≤ 0 := ht d a b (le_of_eq hda) h1
    rcases hs.cases b d with ⟨_, k⟩ | ⟨k, _⟩ | ⟨k, _⟩ <;> omega

/-- Ties are transitive. -/
theorem eq_zero_of_valid {α : Type} {c : α → α → Int} (hs : SignAntisymmetric c)
    (ht : TransitiveLE c) (a b d : α) (h1 : c a b = 0) (h2 : c b d = 0) : c a d = 0 := by
  have hz : c a d ≤ 0 := ht a b d (le_of_eq h1) (le_of_eq h2)
  have hba : c b a = 0 := by
    rcases hs.cases a b with ⟨k, _⟩ | ⟨_, k⟩ | ⟨k, _⟩
    · omega
    · exact k
    · omega
  have hdb : c d b = 0 := by
    rcases hs.cases b d with ⟨k, _⟩ | ⟨_, k⟩ | ⟨k, _⟩
    · omega
    · exact k
    · omega
  have hda : c d a ≤ 0 := ht d b a (le_of_eq hdb) (le_of_eq hba)
  rcases hs.cases a d with ⟨_, k⟩ | ⟨k, _⟩ | ⟨k, _⟩ <;> omega

/-- The first non-zero result of sign-antisymmetric comparison functions is
sign-antisymmetric. -/
theorem firstNonZero_swap_cases {α : Type} (cs : List (α → α → Int))
    (hs : ∀ c ∈ cs, SignAntisymmetric c) (a b : α) :
    (firstNonZero (cs.map fun c => c a b) < 0 ∧ 0 < firstNonZero (cs.map fun c => c b a)) ∨
    (firstNonZero (cs.map fun c => c a b) = 0 ∧ firstNonZero (cs.map fun c => c b a) = 0) ∨
    (0 < firstNonZero (cs.map fun c => c a b) ∧ firstNonZero (cs.map fun c => c b a) < 0) := by
  induction cs with
  | nil => right; left; exact ⟨rfl, rfl⟩
  | cons c cs ih =>
    have ih2 := ih fun x hx => hs x (List.mem_cons_of_mem _ hx)
    simp only [List.map_cons, firstNonZero]
    rcases (hs c (List.mem_cons_self _ _)).cases a b with ⟨h1, h2⟩ | ⟨h1, h2⟩ | ⟨h1, h2⟩
    · rw [if_pos (by omega), if_pos (by omega)]
      exact Or.inl ⟨h1, h2⟩
    · rw [if_neg (by omega), if_neg (by omega)]
      exact ih2
    · rw [if_pos (by omega), if_pos (by omega)]
      exact Or.inr (Or.inr ⟨h1, h2⟩)

/-- The first non-zero result of valid comparison functions is transitive. -/
theorem firstNonZero_trans {α : Type} (cs : List (α → α → Int))
    (hs : ∀ c ∈ cs, SignAntisymmetric c ∧ TransitiveLE c) (a b d : α)
    (h1 : firstNonZero (cs.map fun c => c a b) ≤ 0)
    (h2 : firstNonZero (cs.map fun c => c b d) ≤ 0) :
    firstNonZero (cs.map fun c => c a d) ≤ 0 := by
  induction cs with
  | nil => simp [firstNonZero]
  | cons c cs ih =>
    obtain ⟨hsa, htr⟩ := hs c (List.mem_cons_self _ _)
    simp only [List.map_cons, firstNonZero] at h1 h2 ⊢
    by_cases hx : c a b = 0
    · rw [if_neg (not_not.mpr hx)] at h1
      by_cases hy : c b d = 0
      · rw [if_neg (not_not.mpr hy)] at h2
        rw [if_neg (not_not.mpr (eq_zero_of_valid hsa htr a b d hx hy))]
        exact ih (fun x hx => hs x (List.mem_cons_of_mem _ hx)) h1 h2
      · rw [if_pos hy] at h2
        have hlt := lt_of_valid hsa htr a b d (le_of_eq hx) h2 (Or.inr (lt_of_le_of_ne h2 hy))
        rw [if_pos (ne_of_lt hlt)]
        exact le_of_lt hlt
    · rw [if_pos hx] at h1
      by_cases hy : c b d = 0
      · have hlt := lt_of_valid hsa htr a b d h1 (le_of_eq hy) (Or.inl (lt_of_le_of_ne h1 hx))
        rw [if_pos (ne_of_lt hlt)]
        exact le_of_lt hlt
      · rw [if_pos hy] at h2
        have hlt := lt_of_valid hsa htr a b d h1 h2 (Or.inl (lt_of_le_of_ne h1 hx))
        rw [if_pos (ne_of_lt hlt)]
        exact le_of_lt hlt

/-- C18: composition preserves comparator validity. If every comparator in a non-empty list
`cs` is sign-antisymmetric and transitive, then `composeComparators(...cs)` succeeds and the
functions `asc` and `desc` it returns are each sign-antisymmetric and transitive. -/
theorem composeComparators_preserves_validity {α : Type} (cs : List (α → α → Int))
    (hne : cs ≠ []) (hvalid : ∀ c ∈ cs, SignAntisymmetric c ∧ TransitiveLE c) :
    ∃ p asc desc, composeComparators (cs.map .function) = .ok p ∧
      (∀ a b : α, p.asc a b = .returns (asc a b)) ∧
      (∀ a b : α, p.desc a b = .returns (desc a b)) ∧
      SignAntisymmetric asc ∧ TransitiveLE asc ∧
      SignAntisymmetric desc ∧ TransitiveLE desc := by
  have hsa : ∀ c ∈ cs, SignAntisymmetric c := fun c hc => (hvalid c hc).1
  refine ⟨_, fun a b => 1 * firstNonZero (cs.map fun c => c a b),
    fun a b => -1 * firstNonZero (cs.map fun c => c a b),
    composeComparators_functions cs hne,
    fun a b => composeLoop_functions_zero cs hne 1 a b,
    fun a b => composeLoop_functions_zero cs hne (-1) a b, ?_, ?_, ?_, ?_⟩
  · apply signAntisymmetric_of_cases
    intro a b
    simp only [one_mul]
    exact firstNonZero_swap_cases cs hsa a b
  · intro a b d h1 h2
    simp only [one_mul] at h1 h2 ⊢
    exact firstNonZero_trans cs hvalid a b d h1 h2
  · apply signAntisymmetric_of_cases
    intro a b
    simp only [neg_mul, one_mul, Left.neg_neg_iff, Left.neg_pos_iff, neg_eq_zero]
    rcases firstNonZero_swap_cases cs hsa a b with h | h | h
    · exact Or.inr (Or.inr h)
    · exact Or.inr (Or.inl h)
    · exact Or.inl h
  · intro a b d h1 h2
    simp only [neg_mul, one_mul, Left.neg_nonpos_iff] at h1 h2 ⊢
    have hba : firstNonZero (cs.map fun c => c b a) ≤ 0 := by
      rcases firstNonZero_swap_cases cs hsa a b with ⟨k, _⟩ | ⟨_, k⟩ | ⟨_, k⟩
      · exact absurd h1 (not_le_of_lt k)
      · exact le_of_eq k
      · exact le_of_lt k
    have hdb : firstNonZero (cs.map fun c => c d b) ≤ 0 := by
      rcases firstNonZero_swap_cases cs hsa b d with ⟨k, _⟩ | ⟨_, k⟩ | ⟨_, k⟩
      · exact absurd h2 (not_le_of_lt k)
      · exact le_of_eq k
      · exact le_of_lt k
    have hda := firstNonZero_trans cs hvalid d b a hdb hba
    rcases firstNonZero_swap_cases cs hsa a d with ⟨_, k⟩ | ⟨k, _⟩ | ⟨k, _⟩
    · exact absurd hda (not_le_of_lt k)
    · exact le_of_eq k.symm
    · exact le_of_lt k

theorem sampleComparators_valid :
    ∀ c ∈ sampleComparators, SignAntisymmetric c ∧ TransitiveLE c := by
  intro c hc
  simp only [sampleComparators, List.mem_cons, List.mem_singleton, List.not_mem_nil,
    or_false] at hc
  rcases hc with rfl | rfl
  · exact ⟨fun _ _ => rfl, fun _ _ _ _ _ => le_refl _⟩
  · refine ⟨fun a b => ?_, fun a b d h1 h2 => ?_⟩
    · rw [← Int.sign_neg, neg_sub]
    · have e : a - d = (a - b) + (b - d) := by ring
      show a - d ≤ 0
      rw [e]
      exact add_nonpos h1 h2

/-- C18 at `sampleComparators`, both of which are valid comparison functions. -/
theorem composeComparators_preserves_validity_witness :
    sampleComparators ≠ [] ∧
    (∀ c ∈ sampleComparators, SignAntisymmetric c ∧ TransitiveLE c) ∧
    ∃ p asc desc, composeComparators (sampleComparators.map .function) = .ok p ∧
      (∀ a b : Int, p.asc a b = .returns (asc a b)) ∧
      (∀ a b : Int, p.desc a b = .returns (desc a b)) ∧
      SignAntisymmetric asc ∧ TransitiveLE asc ∧
      SignAntisymmetric desc ∧ TransitiveLE desc :=
  ⟨by simp [sampleComparators], sampleComparators_valid,
    composeComparators_preserves_validity sampleComparators (by simp [sampleComparators])
      sampleComparators_valid⟩

end GenerateComparators
